import Mathlib

/-!
Shallow embedding of the `profit_analyzer` return-computation core.

Sources embedded:
* `src/profit_analyzer/core/portfolio_builder.py` (`PortfolioBuilder.build_positions`,
  `PortfolioBuilder.cash_flows`)
* `src/profit_analyzer/core/profit_calculator.py` (`ProfitCalculator._irr`,
  `ProfitCalculator.compute_time_weighted`, `ProfitCalculator.compute_money_weighted`)
* `src/profit_analyzer/main.py` (`build_equity_curve`)

Modelling conventions:
* A pandas timestamp is a pair: the calendar date (`day : Int`, a day number) and
  a time-of-day component (`tod : Nat`); `dt.date` keeps only `day`.
* Python floats are modelled as exact rationals (`ℚ`) for amounts, quantities and
  prices, and as real numbers (`ℝ`) inside the IRR root-finder, whose NPV uses a
  real-exponent power.  Float rounding and NaN/inf propagation are out of scope.
* A pandas `Series` indexed by dates is a `List (Int × α)` of (date, value) rows;
  a date-indexed `DataFrame` column is a `List (Int × Option α)` where `none` is NaN.
-/

/-- One parsed, filled trade/transfer event row, as produced by the external
parsers: a timestamp (calendar day plus time-of-day), a symbol, a signed
quantity delta and a signed cash amount. -/
structure Trade where
  day : Int
  tod : Nat
  symbol : String
  qty : ℚ
  cash_flow : ℚ

/-- Timestamp order on trades: lexicographic on (calendar day, time-of-day). -/
def Trade.tsLe (s t : Trade) : Prop :=
  s.day < t.day ∨ (s.day = t.day ∧ s.tod ≤ t.tod)

/-- Sorted list of the distinct elements of `l` (the index produced by a pandas
`groupby` over date keys, or `sorted(set(...))`). -/
def sortedDedup (l : List Int) : List Int :=
  (l.dedup).insertionSort (· ≤ ·)

namespace PortfolioBuilder

/-- Recursion of the per-symbol running sum behind
`trades.groupby('symbol')['qty'].cumsum()`: walk the rows in order carrying the
per-symbol totals; each row is annotated with the updated total for its symbol. -/
def cumsum_by_symbol : (String → ℚ) → List Trade → List (Trade × ℚ)
  | _, [] => []
  | totals, t :: ts =>
    let nt := totals t.symbol + t.qty
    (t, nt) :: cumsum_by_symbol (fun s => if s = t.symbol then nt else totals s) ts

/-- `PortfolioBuilder.build_positions` (portfolio_builder.py, lines 9-13):
`trades['position'] = trades.groupby('symbol')['qty'].cumsum()`; each row keeps
its trade and gains the cumulative per-symbol position. -/
def build_positions (trades : List Trade) : List (Trade × ℚ) :=
  cumsum_by_symbol (fun _ => 0) trades

/-- `PortfolioBuilder.cash_flows` (portfolio_builder.py, lines 15-21):
`cf['date'] = pd.to_datetime(cf['datetime']).dt.date` then
`cf.groupby('date')['cash_flow'].sum()`: one row per distinct calendar date, in
ascending date order, holding the sum of the same-day signed cash amounts. -/
def cash_flows (trades : List Trade) : List (Int × ℚ) :=
  (sortedDedup (trades.map Trade.day)).map
    (fun d => (d, ((trades.filter (fun t => decide (t.day = d))).map Trade.cash_flow).sum))

end PortfolioBuilder

/-- `pct_change().dropna()` on the values of a series: consecutive ratios minus
one, the first (undefined) change being dropped. -/
def pct_change_dropna : List ℚ → List ℚ
  | a :: b :: rest => (b / a - 1) :: pct_change_dropna (b :: rest)
  | _ => []

namespace ProfitCalculator

/-- `ProfitCalculator.compute_time_weighted` (profit_calculator.py, lines 37-41):
`returns = equity_curve.pct_change().dropna()`;
`growth = (1 + returns).prod() - 1.0`; result `growth * 100.0`. -/
def compute_time_weighted (equity_curve : List (Int × ℚ)) : ℚ :=
  let returns := pct_change_dropna (equity_curve.map Prod.snd)
  let growth := ((returns.map (fun r => 1 + r)).prod) - 1
  growth * 100

end ProfitCalculator

/-- NPV of the dated flows at annual rate `rate`, discounted on an
actual/365.25 basis with day counts measured from `t0`
(profit_calculator.py, lines 17-22): `(amounts / np.power(1 + rate, years)).sum()`
with `years = days / 365.25`. -/
noncomputable def npv (cash_flows : List (Int × ℚ)) (t0 : Int) (rate : ℝ) : ℝ :=
  (cash_flows.map
    (fun f => (f.2 : ℝ) / (1 + rate) ^ (((f.1 - t0 : Int) : ℝ) / 365.25))).sum

open Classical in
/-- The bracket-search loop of `_irr` (profit_calculator.py, lines 24-35), with
the iteration budget as explicit fuel and the previous midpoint carried so that
the final `return mid` is expressible: each iteration computes
`mid = (low + high)/2`, returns `mid` as soon as `|npv(mid)| < 1e-8`, otherwise
moves `low` up when the value is positive and `high` down otherwise; when the
fuel is exhausted the last midpoint is returned. -/
noncomputable def bisect (f : ℝ → ℝ) : Nat → ℝ → ℝ → ℝ → ℝ
  | 0, _, _, mid => mid
  | n + 1, low, high, _ =>
    let mid := (low + high) / 2
    let val := f mid
    if |val| < 1e-8 then mid
    else if val > 0 then bisect f n mid high mid
    else bisect f n low mid mid

/-- `ProfitCalculator._irr` (profit_calculator.py, lines 8-35): with fewer than
2 rows the result is 0.0; otherwise day counts run from the first row's date
(`dates[0]` of the series handed in, which `compute_money_weighted` sorts) and
the bracket search runs 100 iterations over `[-0.9999, 10.0]`. -/
noncomputable def ProfitCalculator.irr (cash_flows : List (Int × ℚ)) : ℝ :=
  if cash_flows.length < 2 then 0
  else bisect (npv cash_flows cash_flows.headI.1) 100 (-0.9999) 10 0

instance : IsTotal (Int × ℚ) (fun p q => p.1 ≤ q.1) :=
  ⟨fun a b => le_total a.1 b.1⟩

instance : Std.Antisymm (fun x1 x2 : Int => x1 ≤ x2) :=
  ⟨by intro a b h1 h2; exact le_antisymm h1 h2⟩

instance : IsTrans (Int × ℚ) (fun p q => p.1 ≤ q.1) :=
  ⟨fun _ _ _ hab hbc => le_trans hab hbc⟩

/-- `cf.sort_index()`: sort the series rows by their date index. -/
def sort_index (l : List (Int × ℚ)) : List (Int × ℚ) :=
  l.insertionSort (fun p q => p.1 ≤ q.1)

/-- `ProfitCalculator.compute_money_weighted` (profit_calculator.py, lines
43-50): append the terminal value dated one day after `cf.index.max()`
(a fresh maximal date, so `.loc` assignment appends a row), sort by date, run
`_irr`, and scale to percent. -/
noncomputable def ProfitCalculator.compute_money_weighted
    (cash_flows : List (Int × ℚ)) (terminal_value : ℚ) : ℝ :=
  let last_date := ((cash_flows.map Prod.fst).max?).getD 0
  let end_date := last_date + 1
  let cf := cash_flows ++ [(end_date, terminal_value)]
  ProfitCalculator.irr (sort_index cf) * 100

/-- Specification-side NPV of spec section 4.4:
`NPV(r) = Σ_t CF_t/(1+r)^(days_t/365.25)` with `days_t` counted from the
earliest cash-flow date of the series. -/
noncomputable def specNPV (flows : List (Int × ℚ)) (r : ℝ) : ℝ :=
  (flows.map
    (fun f =>
      (f.2 : ℝ) /
        (1 + r) ^ (((f.1 - ((flows.map Prod.fst).min?).getD 0 : Int) : ℝ) / 365.25))).sum

/-! ### Equity curve builder (`main.py`, `build_equity_curve`) -/

/-- A date-indexed DataFrame column: rows of (date, cell), `none` being NaN. -/
abbrev Col : Type := List (Int × Option ℚ)

/-- Point lookup of a column cell: `none` when the date is absent from the
column's index or the stored cell is NaN. -/
def colAt (col : Col) (d : Int) : Option ℚ :=
  (List.lookup d col).join

/-- pandas `ffill` down one column, the carried last observation made explicit:
each NaN cell takes the most recent non-NaN value above it. -/
def ffillFrom (carry : Option ℚ) : Col → Col
  | [] => []
  | (d, v) :: rest =>
    let w := v.orElse (fun _ => carry)
    (d, w) :: ffillFrom w rest

/-- pandas `.ffill()` on one column (nothing carried in from above the top). -/
def ffill (col : Col) : Col := ffillFrom none col

/-- pandas `.fillna(c)` on one column. -/
def fillna (c : ℚ) (col : Col) : Col :=
  col.map (fun p => (p.1, some (p.2.getD c)))

/-- pandas `.reindex(idx)` on one column: rows exactly at the dates of `idx`,
dates absent from the original index getting NaN cells. -/
def reindex (idx : List Int) (col : Col) : Col :=
  idx.map (fun d => (d, colAt col d))

/-- `sorted(t['symbol'].unique())` (main.py, line 21). -/
def symbolsOf (trades : List Trade) : List String :=
  ((trades.map Trade.symbol).dedup).insertionSort (· ≤ ·)

/-- The symbols whose price history came back non-empty — the frames kept by
the loop of main.py, lines 25-34 (`px is None or px.empty` skips a symbol).
An external provider returning `None` is modelled as an empty list. -/
def pricedSymbols (trades : List Trade) (pp : String → List (Int × ℚ)) :
    List String :=
  (symbolsOf trades).filter (fun s => !(pp s).isEmpty)

/-- The distinct event dates, ascending (`t['date']` values). -/
def posDates (trades : List Trade) : List Int :=
  sortedDedup (trades.map Trade.day)

/-- The distinct quote dates across all priced symbols, ascending: the index of
`prices.pivot(index='date', columns='symbol', values='price').sort_index()`. -/
def priceDates (trades : List Trade) (pp : String → List (Int × ℚ)) : List Int :=
  sortedDedup ((pricedSymbols trades pp).flatMap (fun s => (pp s).map Prod.fst))

/-- `idx = sorted(set(pos.index) | set(price_pivot.index))` (main.py, line 58). -/
def unifiedIndex (trades : List Trade) (pp : String → List (Int × ℚ)) : List Int :=
  sortedDedup (posDates trades ++ priceDates trades pp)

/-- One cell of `t.groupby(['date','symbol'])['position'].last().unstack()`
(main.py, line 53): the position of the last row carrying this (date, symbol),
NaN when the pair never occurs.  The `position` column itself is
`t.groupby('symbol')['qty'].cumsum()` (main.py, line 52), the same operation as
`PortfolioBuilder.build_positions`. -/
def posCell (trades : List Trade) (d : Int) (s : String) : Option ℚ :=
  (((PortfolioBuilder.build_positions trades).filter
      (fun p => decide (p.1.day = d) && decide (p.1.symbol = s))).map Prod.snd).getLast?

/-- One unstacked position column, over the event-date index. -/
def posColRaw (trades : List Trade) (s : String) : Col :=
  (posDates trades).map (fun d => (d, posCell trades d s))

/-- The position column after `pos.ffill().fillna(0.0)` (main.py, line 54) and
`pos.reindex(idx).ffill().fillna(0.0)` (main.py, line 59). -/
def posColFinal (trades : List Trade) (idx : List Int) (s : String) : Col :=
  fillna 0 (ffill (reindex idx (fillna 0 (ffill (posColRaw trades s)))))

/-- One pivoted price column over the unified quote-date index: the close of
symbol `s` at a date when the provider quoted it, NaN otherwise (the pivot of
main.py, line 55). -/
def priceColRaw (trades : List Trade) (pp : String → List (Int × ℚ))
    (s : String) : Col :=
  (priceDates trades pp).map (fun d => (d, List.lookup d (pp s)))

/-- The price column after `price_pivot.sort_index().ffill()` (main.py, line
55) and `price_pivot.reindex(idx).ffill()` (main.py, line 60): no `fillna`, so
dates before a symbol's first quote stay NaN. -/
def priceColFinal (trades : List Trade) (pp : String → List (Int × ℚ))
    (idx : List Int) (s : String) : Col :=
  ffill (reindex idx (ffill (priceColRaw trades pp s)))

/-- NaN-propagating product of two cells (`pos * price_pivot` on one cell). -/
def nanMul (a b : Option ℚ) : Option ℚ :=
  match a, b with
  | some x, some y => some (x * y)
  | _, _ => none

/-- Running cumulative sum of a series (`cf.cumsum()`). -/
def cumsum (acc : ℚ) : List (Int × ℚ) → List (Int × ℚ)
  | [] => []
  | (d, v) :: rest => (d, acc + v) :: cumsum (acc + v) rest

/-- `build_equity_curve` (main.py, lines 10-66).  If no symbol produced priced
data, fall back to the cumulative sum of the per-day net cash flows
(`t.groupby('date')['cash_flow'].sum().sort_index().cumsum()`, lines 36-41).
Otherwise mark to market: positions per (date, symbol) forward-filled and
zero-filled, prices forward-filled, both reindexed over the union of the two
date indices, and summed as `(pos * price_pivot).sum(axis=1)` per date, a NaN
product contributing zero to its date's sum (lines 51-63).  A symbol with no
price column (not priced) multiplies into NaN, hence contributes zero. -/
def build_equity_curve (trades : List Trade)
    (pp : String → List (Int × ℚ)) : List (Int × ℚ) :=
  if (pricedSymbols trades pp).isEmpty then
    cumsum 0
      ((sortedDedup (trades.map Trade.day)).map
        (fun d =>
          (d, ((trades.filter (fun t => decide (t.day = d))).map Trade.cash_flow).sum)))
  else
    (unifiedIndex trades pp).map
      (fun d =>
        (d,
          ((symbolsOf trades).map
            (fun s =>
              (nanMul (colAt (posColFinal trades (unifiedIndex trades pp) s) d)
                (if (pricedSymbols trades pp).contains s then
                  colAt (priceColFinal trades pp (unifiedIndex trades pp) s) d
                else none)).getD 0)).sum))

/-- Specification-side position as of a date: the running sum of the signed
quantities of this symbol's events up to and including the date (the
forward-filled, zero-filled position of spec section 4.3, step 4). -/
def posAsOf (trades : List Trade) (s : String) (d : Int) : ℚ :=
  ((trades.filter (fun t => decide (t.symbol = s) && decide (t.day ≤ d))).map
    Trade.qty).sum

/-- Specification-side forward-filled price: the last quote at or before the
date, absent (`none`) when the symbol has no quote at or before it (spec
section 4.3, steps 5-6). -/
def priceAsOf (prices : List (Int × ℚ)) (d : Int) : Option ℚ :=
  ((prices.filter (fun p => decide (p.1 ≤ d))).map Prod.snd).getLast?

/-- Last non-NaN value of a column at dates at or before `d` (proof-side
reading of what forward-fill leaves at `d`). -/
def colAsOf (col : Col) (d : Int) : Option ℚ :=
  (((col.filter (fun p => decide (p.1 ≤ d))).map Prod.snd).reduceOption).getLast?

section SortedDedupLemmas

theorem mem_sortedDedup {d : Int} {l : List Int} : d ∈ sortedDedup l ↔ d ∈ l := by
  unfold sortedDedup
  rw [(List.perm_insertionSort _ _).mem_iff, List.mem_dedup]

theorem sortedDedup_nodup (l : List Int) : (sortedDedup l).Nodup :=
  ((List.perm_insertionSort _ _).nodup_iff).mpr (List.nodup_dedup l)

theorem sortedDedup_sorted_le (l : List Int) :
    (sortedDedup l).Pairwise (· ≤ ·) :=
  List.sorted_insertionSort (· ≤ ·) l.dedup

theorem sortedDedup_sorted_lt (l : List Int) :
    (sortedDedup l).Pairwise (· < ·) := by
  have h := (sortedDedup_sorted_le l).and (sortedDedup_nodup l)
  exact h.imp (fun hab => lt_of_le_of_ne hab.1 hab.2)

end SortedDedupLemmas

section TimeWeighted

theorem compute_time_weighted_eq (curve : List (Int × ℚ)) :
    ProfitCalculator.compute_time_weighted curve =
      (((pct_change_dropna (curve.map Prod.snd)).map (fun r => 1 + r)).prod - 1) * 100 :=
  rfl

theorem pct_change_dropna_map_one_add (l : List ℚ) :
    (pct_change_dropna l).map (fun r => 1 + r) =
      List.zipWith (fun a b => 1 + (b / a - 1)) l l.tail := by
  induction l with
  | nil => rfl
  | cons a l ih =>
    cases l with
    | nil => rfl
    | cons b rest =>
      simp only [pct_change_dropna, List.map_cons, List.tail_cons, List.zipWith_cons_cons]
      rw [List.cons_inj_right]
      simpa using ih

theorem pct_change_dropna_flat (c : ℚ) (hc : c ≠ 0) :
    ∀ l : List ℚ, (∀ x ∈ l, x = c) →
      ((pct_change_dropna l).map (fun r => 1 + r)).prod = 1
  | [] => fun _ => rfl
  | [_] => fun _ => rfl
  | a :: b :: rest => fun h => by
    have ha : a = c := h a (by simp)
    have hb : b = c := h b (by simp)
    have hrec := pct_change_dropna_flat c hc (b :: rest)
      (fun x hx => h x (List.mem_cons_of_mem a hx))
    simp only [pct_change_dropna, List.map_cons, List.prod_cons, hrec, mul_one]
    rw [ha, hb, div_self hc]
    norm_num

theorem pct_change_dropna_telescope (l : List ℚ) (hne : l ≠ [])
    (hnz : ∀ x ∈ l, x ≠ 0) :
    ((pct_change_dropna l).map (fun r => 1 + r)).prod = l.getLastI / l.headI := by
  induction l with
  | nil => exact absurd rfl hne
  | cons a l ih =>
    cases l with
    | nil =>
      have ha : a ≠ 0 := hnz a (by simp)
      simp [pct_change_dropna, List.getLastI, List.headI, div_self ha]
    | cons b rest =>
      have ha : a ≠ 0 := hnz a (by simp)
      have hb : b ≠ 0 := hnz b (by simp)
      have hrec := ih (by simp) (fun x hx => hnz x (List.mem_cons_of_mem a hx))
      have hlast : (a :: b :: rest).getLastI = (b :: rest).getLastI := by
        simp [List.getLastI_eq_getLast?, List.getLast?_cons_cons]
      simp only [pct_change_dropna, List.map_cons, List.prod_cons, hrec, hlast,
        List.headI]
      field_simp
      ring

/-- C3: for every equity curve with at least 2 points, `compute_time_weighted`
returns `(Π (1 + r_i) - 1) × 100` with `r_i = equity[i]/equity[i-1] - 1` ranging
over consecutive points (the first, undefined, change being dropped); and for a
strictly flat curve of equal nonzero values it returns 0. -/
theorem compute_time_weighted_formula (curve : List (Int × ℚ))
    (_hlen : 2 ≤ curve.length) :
    ProfitCalculator.compute_time_weighted curve =
      ((List.zipWith (fun a b => 1 + (b / a - 1))
          (curve.map Prod.snd) (curve.map Prod.snd).tail).prod - 1) * 100 ∧
      (∀ c : ℚ, c ≠ 0 → (∀ p ∈ curve, p.2 = c) →
        ProfitCalculator.compute_time_weighted curve = 0) := by
  constructor
  · rw [compute_time_weighted_eq, pct_change_dropna_map_one_add]
  · intro c hc hflat
    rw [compute_time_weighted_eq, pct_change_dropna_flat c hc (curve.map Prod.snd)
      (fun x hx => by
        obtain ⟨p, hp, hpx⟩ := List.mem_map.mp hx
        exact hpx ▸ hflat p hp)]
    norm_num

theorem compute_time_weighted_formula_witness :
    ProfitCalculator.compute_time_weighted [((0 : Int), (5 : ℚ)), (1, 5)] = 0 :=
  (compute_time_weighted_formula [((0 : Int), (5 : ℚ)), (1, 5)] (by decide)).2
    5 (by norm_num) (by decide)

/-- C7: for every equity curve with fewer than 2 points (empty or a single
value), `compute_time_weighted` returns 0 (the function is total: no exception
path exists). -/
theorem compute_time_weighted_short (curve : List (Int × ℚ))
    (hlen : curve.length < 2) :
    ProfitCalculator.compute_time_weighted curve = 0 := by
  rw [compute_time_weighted_eq]
  match curve, hlen with
  | [], _ => norm_num [pct_change_dropna]
  | [p], _ => norm_num [pct_change_dropna]

theorem compute_time_weighted_short_witness :
    ProfitCalculator.compute_time_weighted [((3 : Int), (42 : ℚ))] = 0 :=
  compute_time_weighted_short [((3 : Int), (42 : ℚ))] (by decide)

/-- C10: for every equity curve with at least 2 strictly positive points,
`compute_time_weighted` telescopes to `(last/first - 1) × 100`: the result
depends only on the first and last values of the curve. -/
theorem compute_time_weighted_telescopes (curve : List (Int × ℚ))
    (hlen : 2 ≤ curve.length) (hpos : ∀ p ∈ curve, 0 < p.2) :
    ProfitCalculator.compute_time_weighted curve =
      ((curve.map Prod.snd).getLastI / (curve.map Prod.snd).headI - 1) * 100 := by
  rw [compute_time_weighted_eq, pct_change_dropna_telescope (curve.map Prod.snd)
    (by
      intro hmapnil
      rw [List.map_eq_nil_iff] at hmapnil
      subst hmapnil
      exact absurd hlen (by decide))
    (fun x hx => by
      obtain ⟨p, hp, hpx⟩ := List.mem_map.mp hx
      exact hpx ▸ ne_of_gt (hpos p hp))]

theorem compute_time_weighted_telescopes_witness :
    ProfitCalculator.compute_time_weighted
      [((0 : Int), (100 : ℚ)), (1, 300), (2, 150)] = 50 := by
  rw [compute_time_weighted_telescopes
    [((0 : Int), (100 : ℚ)), (1, 300), (2, 150)] (by decide) (by decide)]
  norm_num [List.getLastI]

end TimeWeighted

section CashFlowAggregator

theorem map_fst_tag {α β : Type} (g : α → β) (l : List α) :
    (l.map (fun d => (d, g d))).map Prod.fst = l := by
  induction l with
  | nil => rfl
  | cons a l ih => simp only [List.map_cons, ih]

/-- C8: for every trades collection, `cash_flows` groups events by calendar date
(dropping time-of-day), sums the signed cash amounts within each date, and
returns the per-date totals in ascending date order, with an entry exactly for
the dates that have events; two same-day events of -500 and +120 produce the
single entry -380 for that date. -/
theorem cash_flows_groups_by_date :
    (∀ trades : List Trade,
      ((PortfolioBuilder.cash_flows trades).map Prod.fst).Pairwise (· < ·) ∧
      (∀ d : Int,
        d ∈ (PortfolioBuilder.cash_flows trades).map Prod.fst ↔
          d ∈ trades.map Trade.day) ∧
      (∀ p ∈ PortfolioBuilder.cash_flows trades,
        p.2 = ((trades.filter (fun t => decide (t.day = p.1))).map Trade.cash_flow).sum)) ∧
    PortfolioBuilder.cash_flows
        [⟨5, 1, "X", 0, -500⟩, ⟨5, 2, "X", 0, 120⟩] = [(5, -380)] := by
  constructor
  · intro trades
    refine ⟨?_, ?_, ?_⟩
    · have hkeys : (PortfolioBuilder.cash_flows trades).map Prod.fst =
          sortedDedup (trades.map Trade.day) := by
        unfold PortfolioBuilder.cash_flows
        exact map_fst_tag _ _
      rw [hkeys]
      exact sortedDedup_sorted_lt _
    · intro d
      have hkeys : (PortfolioBuilder.cash_flows trades).map Prod.fst =
          sortedDedup (trades.map Trade.day) := by
        unfold PortfolioBuilder.cash_flows
        exact map_fst_tag _ _
      rw [hkeys]
      exact mem_sortedDedup
    · intro p hp
      unfold PortfolioBuilder.cash_flows at hp
      obtain ⟨d, _, hpd⟩ := List.mem_map.mp hp
      subst hpd
      rfl
  · show (sortedDedup [(5 : Int), 5]).map _ = [((5 : Int), (-380 : ℚ))]
    norm_num [sortedDedup, List.dedup, List.insertionSort, List.orderedInsert,
      Trade.day, Trade.cash_flow]

end CashFlowAggregator

section PositionTracker

theorem length_cumsum_by_symbol (totals : String → ℚ) (trades : List Trade) :
    (PortfolioBuilder.cumsum_by_symbol totals trades).length = trades.length := by
  induction trades generalizing totals with
  | nil => rfl
  | cons t ts ih => simp [PortfolioBuilder.cumsum_by_symbol, ih]

theorem length_build_positions (trades : List Trade) :
    (PortfolioBuilder.build_positions trades).length = trades.length :=
  length_cumsum_by_symbol _ trades

theorem cumsum_by_symbol_get (trades : List Trade) :
    ∀ (totals : String → ℚ) (i : Nat) (hi : i < trades.length),
      ((PortfolioBuilder.cumsum_by_symbol totals trades).get
          ⟨i, lt_of_lt_of_eq hi (length_cumsum_by_symbol totals trades).symm⟩).2 =
        totals ((trades.get ⟨i, hi⟩).symbol) +
          (((trades.take (i + 1)).filter
              (fun t => decide (t.symbol = (trades.get ⟨i, hi⟩).symbol))).map
            Trade.qty).sum := by
  induction trades with
  | nil => intro totals i hi; exact absurd hi (by simp)
  | cons t ts ih =>
    intro totals i hi
    cases i with
    | zero =>
      simp [PortfolioBuilder.cumsum_by_symbol, List.get]
    | succ i =>
      have hi' : i < ts.length := Nat.lt_of_succ_lt_succ hi
      have hstep := ih (fun s => if s = t.symbol
        then totals t.symbol + t.qty else totals s) i hi'
      simp only [PortfolioBuilder.cumsum_by_symbol, List.get] at hstep ⊢
      rw [hstep, List.take_succ_cons, List.filter_cons]
      by_cases hsym : (ts.get ⟨i, hi'⟩).symbol = t.symbol
      · rw [if_pos hsym, if_pos (by simp [hsym.symm])]
        simp only [List.map_cons, List.sum_cons, hsym]
        ring
      · rw [if_neg hsym,
          if_neg (fun hdec => hsym (Eq.symm (of_decide_eq_true hdec)))]

/-- C9: for every event sequence sorted by timestamp, `build_positions` assigns
to each event the running per-symbol sum of signed quantities up to and
including that event; a single symbol with quantity events +10, -4, +2 in
timestamp order yields the cumulative position sequence 10, 6, 8. -/
theorem build_positions_running_sum :
    (∀ (trades : List Trade), trades.Pairwise Trade.tsLe →
      ∀ (i : Nat) (hi : i < trades.length),
        ((PortfolioBuilder.build_positions trades).get
            ⟨i, lt_of_lt_of_eq hi (length_build_positions trades).symm⟩).2 =
          (((trades.take (i + 1)).filter
              (fun t => decide (t.symbol = (trades.get ⟨i, hi⟩).symbol))).map
            Trade.qty).sum) ∧
    (PortfolioBuilder.build_positions
        [⟨0, 0, "A", 10, 0⟩, ⟨1, 0, "A", -4, 0⟩, ⟨2, 0, "A", 2, 0⟩]).map Prod.snd =
      [10, 6, 8] := by
  constructor
  · intro trades _hsorted i hi
    have h := cumsum_by_symbol_get trades (fun _ => 0) i hi
    rw [zero_add] at h
    exact h
  · norm_num [PortfolioBuilder.build_positions, PortfolioBuilder.cumsum_by_symbol]

theorem build_positions_running_sum_witness :
    ((PortfolioBuilder.build_positions
        [⟨0, 0, "A", (10 : ℚ), 0⟩, ⟨1, 0, "A", -4, 0⟩, ⟨2, 0, "A", 2, 0⟩]).get
      ⟨2, by norm_num [PortfolioBuilder.build_positions,
        PortfolioBuilder.cumsum_by_symbol]⟩).2 = 8 := by
  have h := build_positions_running_sum.1
    [⟨0, 0, "A", (10 : ℚ), 0⟩, ⟨1, 0, "A", -4, 0⟩, ⟨2, 0, "A", 2, 0⟩]
    (by
      refine List.Pairwise.cons ?_ (List.Pairwise.cons ?_ ?_) <;>
        simp [Trade.tsLe])
    2 (by norm_num)
  rw [h]
  norm_num

end PositionTracker

section Bisection

theorem bisect_mem_Icc (f : ℝ → ℝ) :
    ∀ (n : Nat) (low high d : ℝ), low ≤ high → d ∈ Set.Icc low high →
      bisect f n low high d ∈ Set.Icc low high := by
  intro n
  induction n with
  | zero => intro low high d _ hd; exact hd
  | succ n ih =>
    intro low high d hlh _
    rw [bisect]
    set mid := (low + high) / 2 with hmid
    have hlow : low ≤ mid := by rw [hmid]; linarith
    have hhigh : mid ≤ high := by rw [hmid]; linarith
    by_cases habs : |f mid| < 1e-8
    · rw [if_pos habs]; exact ⟨hlow, hhigh⟩
    · rw [if_neg habs]
      by_cases hpos : f mid > 0
      · rw [if_pos hpos]
        have h := ih mid high mid hhigh ⟨le_refl mid, hhigh⟩
        exact ⟨le_trans hlow h.1, h.2⟩
      · rw [if_neg hpos]
        have h := ih low mid mid hlow ⟨hlow, le_refl mid⟩
        exact ⟨h.1, le_trans h.2 hhigh⟩

/-- C6: for every cash-flow series with at least 2 rows, `_irr` runs the
bisection with a budget of exactly 100 iterations (the fuel of `bisect`) and
the returned value always lies inside the initial bracket `[-0.9999, 10]`,
whatever the NPV function does (in particular with no sign change); the
function is total, so no exception path exists. -/
theorem irr_runs_bounded_bisection (cf : List (Int × ℚ)) (h2 : 2 ≤ cf.length) :
    ProfitCalculator.irr cf = bisect (npv cf cf.headI.1) 100 (-0.9999) 10 0 ∧
    ProfitCalculator.irr cf ∈ Set.Icc (-0.9999 : ℝ) 10 := by
  have hguard : ¬cf.length < 2 := not_lt.mpr h2
  constructor
  · unfold ProfitCalculator.irr
    rw [if_neg hguard]
  · unfold ProfitCalculator.irr
    rw [if_neg hguard]
    exact bisect_mem_Icc _ 100 _ _ _ (by norm_num) (by constructor <;> norm_num)

theorem irr_runs_bounded_bisection_witness :
    ProfitCalculator.irr [((0 : Int), (-1 : ℚ)), (1, 2)] ∈
      Set.Icc (-0.9999 : ℝ) 10 :=
  (irr_runs_bounded_bisection [((0 : Int), (-1 : ℚ)), (1, 2)] (by decide)).2

/-- C2 (amended): the 0.0 degenerate return is decided by `_irr` on the series
it receives, after the terminal append: with fewer than 2 rows in that series
`_irr` returns 0.0 without running the bisection. -/
theorem irr_short_series (cf : List (Int × ℚ)) (h : cf.length < 2) :
    ProfitCalculator.irr cf = 0 := by
  unfold ProfitCalculator.irr
  rw [if_pos h]

theorem irr_short_series_witness : ProfitCalculator.irr [] = 0 :=
  irr_short_series [] (by decide)

theorem bisect_of_all_large (f : ℝ → ℝ) :
    ∀ (n : Nat) (low high d : ℝ), low ≤ high →
      (∀ r, low ≤ r → r ≤ high → (1e-8 : ℝ) ≤ f r) →
      bisect f (n + 1) low high d = high - (high - low) / 2 ^ (n + 1) := by
  intro n
  induction n with
  | zero =>
    intro low high d hlh hbig
    rw [bisect]
    set mid := (low + high) / 2 with hmid
    have hlow : low ≤ mid := by rw [hmid]; linarith
    have hhigh : mid ≤ high := by rw [hmid]; linarith
    have hf : (1e-8 : ℝ) ≤ f mid := hbig mid hlow hhigh
    have habs : ¬|f mid| < 1e-8 := not_lt.mpr (le_trans hf (le_abs_self _))
    have hpos : f mid > 0 := lt_of_lt_of_le (by norm_num) hf
    rw [if_neg habs, if_pos hpos, bisect, hmid]
    ring
  | succ n ih =>
    intro low high d hlh hbig
    rw [bisect]
    set mid := (low + high) / 2 with hmid
    have hlow : low ≤ mid := by rw [hmid]; linarith
    have hhigh : mid ≤ high := by rw [hmid]; linarith
    have hf : (1e-8 : ℝ) ≤ f mid := hbig mid hlow hhigh
    have habs : ¬|f mid| < 1e-8 := not_lt.mpr (le_trans hf (le_abs_self _))
    have hpos : f mid > 0 := lt_of_lt_of_le (by norm_num) hf
    rw [if_neg habs, if_pos hpos,
      ih mid high mid hhigh (fun r hr1 hr2 => hbig r (le_trans hlow hr1) hr2), hmid]
    have h2 : (2 : ℝ) ^ (n + 1 + 1) = 2 ^ (n + 1) * 2 := by ring
    field_simp
    ring

end Bisection

section MoneyWeightedCounterexample

theorem compute_money_weighted_unfold (cfs : List (Int × ℚ)) (tv : ℚ) :
    ProfitCalculator.compute_money_weighted cfs tv =
      ProfitCalculator.irr
        (sort_index (cfs ++ [((((cfs.map Prod.fst).max?).getD 0) + 1, tv)])) * 100 :=
  rfl

theorem npv_single_flow_example_large :
    ∀ r : ℝ, -0.9999 ≤ r → r ≤ 10 →
      (1e-8 : ℝ) ≤ npv [((0 : Int), (-1000 : ℚ)), (1, 2000)] 0 r := by
  intro r hr1 hr2
  have hx0 : (0 : ℝ) < 1 + r := by linarith
  have hx11 : 1 + r ≤ 11 := by linarith
  have hxp : (0 : ℝ) < (1 + r) ^ ((1 : ℝ) / 365.25) := Real.rpow_pos_of_pos hx0 _
  have h2 : (11 : ℝ) ^ ((1 : ℝ) / 365.25) < 1.25 := by
    have ha : (11 : ℝ) < (1.25 : ℝ) ^ (365.25 : ℝ) := by
      have hb : ((1.25 : ℝ)) ^ (11 : ℕ) ≤ (1.25 : ℝ) ^ (365.25 : ℝ) := by
        rw [← Real.rpow_natCast (1.25 : ℝ) 11]
        exact Real.rpow_le_rpow_of_exponent_le (by norm_num) (by norm_num)
      have hc : (11 : ℝ) < (1.25 : ℝ) ^ (11 : ℕ) := by norm_num
      linarith
    calc (11 : ℝ) ^ ((1 : ℝ) / 365.25)
        < ((1.25 : ℝ) ^ (365.25 : ℝ)) ^ ((1 : ℝ) / 365.25) :=
          Real.rpow_lt_rpow (by norm_num) ha (by norm_num)
      _ = (1.25 : ℝ) ^ ((365.25 : ℝ) * ((1 : ℝ) / 365.25)) :=
          (Real.rpow_mul (by norm_num) _ _).symm
      _ = (1.25 : ℝ) ^ (1 : ℝ) := by norm_num
      _ = 1.25 := Real.rpow_one _
  have h1 : (1 + r) ^ ((1 : ℝ) / 365.25) ≤ (11 : ℝ) ^ ((1 : ℝ) / 365.25) :=
    Real.rpow_le_rpow (le_of_lt hx0) hx11 (by norm_num)
  have hlt : (1 + r) ^ ((1 : ℝ) / 365.25) < 1.25 := lt_of_le_of_lt h1 h2
  have hdiv : (2000 : ℝ) / 1.25 < 2000 / (1 + r) ^ ((1 : ℝ) / 365.25) :=
    div_lt_div_of_pos_left (by norm_num) hxp hlt
  have hnpv : npv [((0 : Int), (-1000 : ℚ)), (1, 2000)] 0 r =
      -1000 / (1 + r) ^ ((0 : ℝ) / 365.25) +
        (2000 / (1 + r) ^ ((1 : ℝ) / 365.25) + 0) := by
    unfold npv
    norm_num
  rw [hnpv]
  rw [show ((0 : ℝ) / 365.25) = 0 by norm_num, Real.rpow_zero]
  have : (2000 : ℝ) / 1.25 = 1600 := by norm_num
  linarith

/-- C2 counterexample: the cash-flow series `[-1000 @ day 0]` has exactly one
dated entry (fewer than 2), yet `compute_money_weighted` with terminal value
2000 runs the bisection (the appended series has 2 rows) and returns
`(10 - 10.9999/2^100) * 100`, which is not 0. -/
theorem compute_money_weighted_single_entry_nonzero :
    ProfitCalculator.compute_money_weighted [((0 : Int), (-1000 : ℚ))] 2000 ≠ 0 := by
  rw [compute_money_weighted_unfold]
  have hdate : ((([((0 : Int), (-1000 : ℚ))].map Prod.fst).max?).getD 0) + 1 = 1 := rfl
  rw [hdate]
  have hsort : sort_index ([((0 : Int), (-1000 : ℚ))] ++ [(1, 2000)]) =
      [((0 : Int), (-1000 : ℚ)), (1, 2000)] := rfl
  rw [hsort]
  have hirr : ProfitCalculator.irr [((0 : Int), (-1000 : ℚ)), (1, 2000)] =
      bisect (npv [((0 : Int), (-1000 : ℚ)), (1, 2000)] 0) 100 (-0.9999) 10 0 := by
    unfold ProfitCalculator.irr
    rw [if_neg (by norm_num)]
    rfl
  rw [hirr]
  rw [bisect_of_all_large (npv [((0 : Int), (-1000 : ℚ)), (1, 2000)] 0) 99
    (-0.9999) 10 0 (by norm_num) npv_single_flow_example_large]
  norm_num

end MoneyWeightedCounterexample

section MoneyWeightedSpec

theorem sort_index_perm (l : List (Int × ℚ)) : (sort_index l).Perm l :=
  List.perm_insertionSort _ l

theorem sort_index_sorted (l : List (Int × ℚ)) :
    (sort_index l).Pairwise (fun p q => p.1 ≤ q.1) :=
  List.sorted_insertionSort _ l

theorem npv_congr_perm {l1 l2 : List (Int × ℚ)} (h : l1.Perm l2) (t0 : Int) (r : ℝ) :
    npv l1 t0 r = npv l2 t0 r :=
  (h.map _).sum_eq

theorem sort_index_headI_fst (l : List (Int × ℚ)) (hne : l ≠ []) :
    (sort_index l).headI.1 = ((l.map Prod.fst).min?).getD 0 := by
  have hperm := sort_index_perm l
  have hsne : sort_index l ≠ [] := by
    intro h
    rw [h] at hperm
    exact hne hperm.symm.eq_nil
  obtain ⟨hd, tl, hcons⟩ := List.exists_cons_of_ne_nil hsne
  have hsorted := sort_index_sorted l
  rw [hcons] at hsorted hperm ⊢
  have hmin : (l.map Prod.fst).min? = some hd.1 := by
    rw [List.min?_eq_some_iff (fun a => le_refl a)
      (fun a b => min_choice a b)
      (fun a b c => le_min_iff)]
    constructor
    · exact List.mem_map_of_mem Prod.fst (hperm.mem_iff.mp (by simp))
    · intro b hb
      obtain ⟨p, hpl, hpb⟩ := List.mem_map.mp hb
      have hps : p ∈ hd :: tl := hperm.mem_iff.mpr hpl
      rcases List.mem_cons.mp hps with h | h
      · rw [← hpb, h]
      · exact hpb ▸ List.rel_of_pairwise_cons hsorted h
  rw [hmin]
  rfl

/-- C1: for every cash-flow series with at least one dated entry and every
terminal value, `compute_money_weighted` appends a synthetic flow equal to
`terminal_value` dated one day after the last observed cash-flow date and
returns 100 times the value found by 100-iteration bisection of
`NPV(r) = Σ_t CF_t/(1+r)^(days_t/365.25)` (days counted from the earliest flow
date) over `[-0.9999, 10]`, stopping as soon as `|NPV(mid)| < 1e-8` and
otherwise returning the last midpoint. -/
theorem compute_money_weighted_appends_and_bisects
    (cfs : List (Int × ℚ)) (tv : ℚ) (hne : cfs ≠ []) :
    ProfitCalculator.compute_money_weighted cfs tv =
      bisect (specNPV (cfs ++ [((((cfs.map Prod.fst).max?).getD 0) + 1, tv)]))
        100 (-0.9999) 10 0 * 100 := by
  rw [compute_money_weighted_unfold]
  set A := cfs ++ [((((cfs.map Prod.fst).max?).getD 0) + 1, tv)] with hA
  have hAne : A ≠ [] := by
    rw [hA]
    exact fun h => by simpa using congrArg List.length h
  have hlen : ¬(sort_index A).length < 2 := by
    rw [not_lt, (sort_index_perm A).length_eq, hA, List.length_append]
    have : 1 ≤ cfs.length := by
      cases cfs with
      | nil => exact absurd rfl hne
      | cons a l => simp
    simpa using this
  have hfun : npv (sort_index A) ((sort_index A).headI.1) = specNPV A := by
    funext r
    rw [sort_index_headI_fst A hAne]
    exact npv_congr_perm (sort_index_perm A) _ r
  unfold ProfitCalculator.irr
  rw [if_neg hlen, hfun]

theorem compute_money_weighted_appends_and_bisects_witness :
    ProfitCalculator.compute_money_weighted [((0 : Int), (-1000 : ℚ))] 2000 =
      bisect (specNPV [((0 : Int), (-1000 : ℚ)), (1, 2000)])
        100 (-0.9999) 10 0 * 100 :=
  compute_money_weighted_appends_and_bisects [((0 : Int), (-1000 : ℚ))] 2000
    (by simp)

end MoneyWeightedSpec

section EquityFallback

theorem cumsum_map_fst (acc : ℚ) (l : List (Int × ℚ)) :
    (cumsum acc l).map Prod.fst = l.map Prod.fst := by
  induction l generalizing acc with
  | nil => rfl
  | cons p rest ih =>
    cases p with
    | mk d v => simp only [cumsum, List.map_cons, ih]

/-- C4: when no symbol returns priced data, `build_equity_curve` returns, date
for date, the cumulative sum of the daily cash-flow series, and its dates are
exactly the dates that have events. -/
theorem build_equity_curve_cash_fallback (trades : List Trade)
    (pp : String → List (Int × ℚ))
    (hnone : ∀ s ∈ symbolsOf trades, pp s = []) :
    build_equity_curve trades pp = cumsum 0 (PortfolioBuilder.cash_flows trades) ∧
    (∀ d : Int,
      d ∈ (build_equity_curve trades pp).map Prod.fst ↔ d ∈ trades.map Trade.day) := by
  have hempty : (pricedSymbols trades pp).isEmpty = true := by
    rw [List.isEmpty_iff]
    rw [pricedSymbols, List.filter_eq_nil_iff]
    intro s hs
    rw [hnone s hs]
    simp
  have hbec : build_equity_curve trades pp =
      cumsum 0 (PortfolioBuilder.cash_flows trades) := by
    unfold build_equity_curve
    rw [if_pos hempty]
    rfl
  refine ⟨hbec, fun d => ?_⟩
  rw [hbec, cumsum_map_fst,
    show (PortfolioBuilder.cash_flows trades).map Prod.fst =
      sortedDedup (trades.map Trade.day) from map_fst_tag _ _]
  exact mem_sortedDedup

theorem build_equity_curve_cash_fallback_witness :
    build_equity_curve [⟨3, 0, "A", 1, 10⟩, ⟨5, 0, "B", 2, -4⟩] (fun _ => []) =
      cumsum 0
        (PortfolioBuilder.cash_flows [⟨3, 0, "A", 1, 10⟩, ⟨5, 0, "B", 2, -4⟩]) :=
  (build_equity_curve_cash_fallback [⟨3, 0, "A", 1, 10⟩, ⟨5, 0, "B", 2, -4⟩]
    (fun _ => []) (fun _ _ => rfl)).1

end EquityFallback

section ColumnLemmas

theorem ffillFrom_map_fst (c : Option ℚ) (col : Col) :
    (ffillFrom c col).map Prod.fst = col.map Prod.fst := by
  induction col generalizing c with
  | nil => rfl
  | cons p rest ih =>
    cases p with
    | mk k v => simp only [ffillFrom, List.map_cons, ih]

theorem fillna_map_fst (c : ℚ) (col : Col) :
    (fillna c col).map Prod.fst = col.map Prod.fst := by
  unfold fillna
  rw [List.map_map]
  rfl

theorem reindex_map_fst (idx : List Int) (col : Col) :
    (reindex idx col).map Prod.fst = idx := by
  unfold reindex
  exact map_fst_tag _ _

theorem colAt_cons (k : Int) (w : Option ℚ) (rest : Col) (d : Int) :
    colAt ((k, w) :: rest) d = if d = k then w else colAt rest d := by
  unfold colAt
  by_cases h : d = k
  · simp [List.lookup, h]
  · simp [List.lookup, beq_false_of_ne h, if_neg h]

theorem lookup_none_of_not_mem {β : Type} (l : List (Int × β)) (d : Int)
    (h : d ∉ l.map Prod.fst) : List.lookup d l = none := by
  induction l with
  | nil => rfl
  | cons p rest ih =>
    cases p with
    | mk k w =>
      have hne : d ≠ k := fun hdk => h (by simp [hdk])
      simp only [List.lookup, beq_false_of_ne hne]
      exact ih (fun hd => h (List.mem_cons_of_mem _ hd))

theorem lookup_some_of_mem {β : Type} (l : List (Int × β)) (d : Int)
    (h : d ∈ l.map Prod.fst) : ∃ w, List.lookup d l = some w := by
  induction l with
  | nil => exact absurd h (by simp)
  | cons p rest ih =>
    cases p with
    | mk k w =>
      by_cases hdk : d = k
      · exact ⟨w, by simp [List.lookup, hdk]⟩
      · have hd : d ∈ rest.map Prod.fst := by
          rcases List.mem_cons.mp h with h1 | h1
          · exact absurd h1 hdk
          · exact h1
        obtain ⟨w1, hw1⟩ := ih hd
        exact ⟨w1, by simp only [List.lookup, beq_false_of_ne hdk]; exact hw1⟩

theorem colAt_not_mem (col : Col) (d : Int) (h : d ∉ col.map Prod.fst) :
    colAt col d = none := by
  unfold colAt
  rw [lookup_none_of_not_mem col d h]
  rfl

theorem lastSome_cons (w : Option ℚ) (l : List (Option ℚ)) :
    ((w :: l).reduceOption).getLast? =
      ((l.reduceOption).getLast?).orElse (fun _ => w) := by
  cases w with
  | none =>
    rw [List.reduceOption_cons_of_none]
    cases hx : (l.reduceOption).getLast? <;> simp [Option.orElse]
  | some x =>
    rw [List.reduceOption_cons_of_some]
    cases hrl : l.reduceOption with
    | nil => simp [Option.orElse]
    | cons y ys =>
      rw [List.getLast?_cons_cons]
      cases hx : (y :: ys).getLast? with
      | none => exact absurd (List.getLast?_eq_none_iff.mp hx) (by simp)
      | some z => simp [Option.orElse]

theorem colAsOf_nil (d : Int) : colAsOf [] d = none := rfl

theorem colAsOf_cons_le (d0 : Int) (v0 : Option ℚ) (rest : Col) (d : Int)
    (hle : d0 ≤ d) :
    colAsOf ((d0, v0) :: rest) d = (colAsOf rest d).orElse (fun _ => v0) := by
  unfold colAsOf
  rw [List.filter_cons_of_pos (by simpa using hle), List.map_cons, lastSome_cons]

theorem colAsOf_cons_gt (d0 : Int) (v0 : Option ℚ) (rest : Col) (d : Int)
    (hgt : ¬d0 ≤ d) :
    colAsOf ((d0, v0) :: rest) d = colAsOf rest d := by
  unfold colAsOf
  rw [List.filter_cons_of_neg (by simpa using hgt)]

theorem colAsOf_none_of_all_gt (col : Col) (d : Int)
    (h : ∀ k ∈ col.map Prod.fst, ¬k ≤ d) : colAsOf col d = none := by
  unfold colAsOf
  rw [List.filter_eq_nil_iff.mpr
    (fun p hp => by simpa using h p.1 (List.mem_map_of_mem Prod.fst hp))]
  rfl

theorem colAt_ffillFrom (d : Int) :
    ∀ (col : Col) (c : Option ℚ), (col.map Prod.fst).Pairwise (· < ·) →
      d ∈ col.map Prod.fst →
      colAt (ffillFrom c col) d = (colAsOf col d).orElse (fun _ => c) := by
  intro col
  induction col with
  | nil => intro c _ hmem; exact absurd hmem (by simp)
  | cons p rest ih =>
    intro c hsorted hmem
    cases p with
    | mk d0 v0 =>
      rw [List.map_cons, List.pairwise_cons] at hsorted
      obtain ⟨hlt, hrest⟩ := hsorted
      show colAt ((d0, v0.orElse (fun _ => c)) ::
        ffillFrom (v0.orElse (fun _ => c)) rest) d = _
      rcases List.mem_cons.mp hmem with hd0 | hdrest
      · rw [colAt_cons, if_pos hd0,
          colAsOf_cons_le d0 v0 rest d (le_of_eq hd0.symm),
          colAsOf_none_of_all_gt rest d
            (fun k hk => not_le_of_lt (hd0 ▸ hlt k hk))]
        cases v0 <;> simp [Option.orElse]
      · have hne : d ≠ d0 := ne_of_gt (hlt d hdrest)
        rw [colAt_cons, if_neg hne, ih _ hrest hdrest,
          colAsOf_cons_le d0 v0 rest d (le_of_lt (hlt d hdrest))]
        cases hro : colAsOf rest d with
        | some y => simp [Option.orElse]
        | none => cases v0 <;> simp [Option.orElse]

end ColumnLemmas

section FfillAsOf

theorem colAsOf_ffillFrom (d : Int) :
    ∀ (col : Col) (c : Option ℚ), (col.map Prod.fst).Pairwise (· < ·) →
      colAsOf (ffillFrom c col) d =
        if (col.filter (fun p => decide (p.1 ≤ d))).isEmpty then none
        else (colAsOf col d).orElse (fun _ => c) := by
  intro col
  induction col with
  | nil => intro c _; rfl
  | cons p rest ih =>
    intro c hsorted
    cases p with
    | mk d0 v0 =>
      rw [List.map_cons, List.pairwise_cons] at hsorted
      obtain ⟨hlt, hrest⟩ := hsorted
      show colAsOf ((d0, v0.orElse (fun _ => c)) ::
        ffillFrom (v0.orElse (fun _ => c)) rest) d = _
      by_cases h0 : d0 ≤ d
      · have hcond : ¬((((d0, v0) :: rest).filter
            (fun p => decide (p.1 ≤ d))).isEmpty = true) := by
          rw [List.filter_cons_of_pos (by simpa using h0)]
          simp
        rw [if_neg hcond,
          colAsOf_cons_le _ _ _ _ h0,
          colAsOf_cons_le _ _ _ _ h0,
          ih _ hrest]
        by_cases hre : ((rest.filter (fun p => decide (p.1 ≤ d))).isEmpty = true)
        · have hnone : colAsOf rest d = none := by
            unfold colAsOf
            rw [List.isEmpty_iff.mp hre]
            rfl
          rw [if_pos hre, hnone]
          cases v0 <;> simp [Option.orElse]
        · rw [if_neg hre]
          cases hro : colAsOf rest d with
          | some y => simp [Option.orElse]
          | none => cases v0 <;> cases c <;> simp [Option.orElse]
      · have hallgt : ∀ k ∈ ((d0, v0) :: rest).map Prod.fst, ¬k ≤ d := by
          intro k hk
          rcases List.mem_cons.mp hk with h1 | h1
          · exact h1 ▸ h0
          · exact fun hkd => h0 (le_of_lt (lt_of_lt_of_le (hlt k h1) hkd))
        have hcond : (((d0, v0) :: rest).filter
            (fun p => decide (p.1 ≤ d))).isEmpty = true := by
          rw [List.isEmpty_iff, List.filter_eq_nil_iff]
          intro p hp
          simpa using hallgt p.1 (List.mem_map_of_mem Prod.fst hp)
        rw [if_pos hcond]
        refine colAsOf_none_of_all_gt _ d ?_
        rw [show ((d0, v0.orElse (fun _ => c)) ::
            ffillFrom (v0.orElse (fun _ => c)) rest).map Prod.fst =
            ((d0, v0) :: rest).map Prod.fst by
          simp [ffillFrom_map_fst]]
        exact hallgt

theorem colAsOf_ffill (col : Col) (d : Int)
    (hsorted : (col.map Prod.fst).Pairwise (· < ·)) :
    colAsOf (ffill col) d = colAsOf col d := by
  unfold ffill
  rw [colAsOf_ffillFrom d col none hsorted]
  by_cases hre : ((col.filter (fun p => decide (p.1 ≤ d))).isEmpty = true)
  · rw [if_pos hre]
    unfold colAsOf
    rw [List.isEmpty_iff.mp hre]
    rfl
  · rw [if_neg hre]
    cases hro : colAsOf col d <;> simp [Option.orElse]

end FfillAsOf

section ReindexAsOf

theorem lookup_filter_le {β : Type} (l : List (Int × β)) (e d : Int) (he : e ≤ d) :
    List.lookup e (l.filter (fun p => decide (p.1 ≤ d))) = List.lookup e l := by
  induction l with
  | nil => rfl
  | cons p rest ih =>
    cases p with
    | mk k w =>
      by_cases hk : k ≤ d
      · rw [List.filter_cons_of_pos (by simpa using hk)]
        by_cases hek : e = k
        · simp [List.lookup, hek]
        · simp only [List.lookup, beq_false_of_ne hek]
          exact ih
      · rw [List.filter_cons_of_neg (by simpa using hk)]
        have hek : e ≠ k := fun h => hk (h ▸ he)
        simp only [List.lookup, beq_false_of_ne hek]
        exact ih

theorem reindex_nil_reduceOption (idx : List Int) :
    ((reindex idx ([] : Col)).map Prod.snd).reduceOption = [] := by
  induction idx with
  | nil => rfl
  | cons e idx' ih =>
    rw [show reindex (e :: idx') ([] : Col) =
        (e, colAt [] e) :: reindex idx' [] from rfl,
      List.map_cons, show colAt ([] : Col) e = none from rfl,
      List.reduceOption_cons_of_none]
    exact ih

theorem reduceOption_reindex_vals :
    ∀ (idx : List Int) (P : Col), idx.Pairwise (· < ·) →
      (P.map Prod.fst).Pairwise (· < ·) →
      (∀ k ∈ P.map Prod.fst, k ∈ idx) →
      ((reindex idx P).map Prod.snd).reduceOption = (P.map Prod.snd).reduceOption := by
  intro idx
  induction idx with
  | nil =>
    intro P _ _ hsub
    cases P with
    | nil => rfl
    | cons q Q => exact absurd (hsub q.1 (by simp)) (by simp)
  | cons e idx' ih =>
    intro P hidx hP hsub
    rw [List.pairwise_cons] at hidx
    obtain ⟨helt, hidx'⟩ := hidx
    cases P with
    | nil => exact reindex_nil_reduceOption (e :: idx')
    | cons q Q =>
      cases q with
      | mk k w =>
        rw [List.map_cons, List.pairwise_cons] at hP
        obtain ⟨hklt, hQ⟩ := hP
        by_cases hek : e = k
        · have hcolAt : colAt ((k, w) :: Q) e = w := by
            rw [colAt_cons, if_pos hek]
          have hre : reindex idx' ((k, w) :: Q) = reindex idx' Q := by
            unfold reindex
            refine List.map_congr_left (fun e' he' => ?_)
            have hne : e' ≠ k := ne_of_gt (hek ▸ helt e' he')
            rw [colAt_cons, if_neg hne]
          have hsub' : ∀ k' ∈ Q.map Prod.fst, k' ∈ idx' := by
            intro k' hk'
            have hk'P : k' ∈ ((k, w) :: Q).map Prod.fst :=
              List.mem_cons_of_mem _ hk'
            rcases List.mem_cons.mp (hsub k' hk'P) with h1 | h1
            · exfalso
              have hlt2 : k < k' := hklt k' hk'
              rw [h1, hek] at hlt2
              exact lt_irrefl _ hlt2
            · exact h1
          have hrest := ih Q hidx' hQ hsub'
          rw [show reindex (e :: idx') ((k, w) :: Q) =
              (e, colAt ((k, w) :: Q) e) :: reindex idx' ((k, w) :: Q) from rfl,
            hcolAt, hre, List.map_cons, List.map_cons]
          cases w with
          | some x =>
            rw [List.reduceOption_cons_of_some, List.reduceOption_cons_of_some, hrest]
          | none =>
            rw [List.reduceOption_cons_of_none, List.reduceOption_cons_of_none]
            exact hrest
        · have hkidx' : k ∈ idx' := by
            rcases List.mem_cons.mp (hsub k (by simp)) with h1 | h1
            · exact absurd h1.symm hek
            · exact h1
          have hek2 : e < k := helt k hkidx'
          have hcolAt : colAt ((k, w) :: Q) e = none := by
            apply colAt_not_mem
            intro hmem
            rcases List.mem_cons.mp hmem with h1 | h1
            · exact hek h1
            · exact lt_asymm hek2 (hklt e h1)
          have hsub' : ∀ k' ∈ ((k, w) :: Q).map Prod.fst, k' ∈ idx' := by
            intro k' hk'
            rcases List.mem_cons.mp (hsub k' hk') with h1 | h1
            · exfalso
              rcases List.mem_cons.mp hk' with h2 | h2
              · exact hek (h1.symm.trans h2)
              · have hlt2 : k < k' := hklt k' h2
                rw [h1] at hlt2
                exact lt_asymm hek2 hlt2
            · exact h1
          have hrest := ih ((k, w) :: Q) hidx'
            (by rw [List.map_cons, List.pairwise_cons]; exact ⟨hklt, hQ⟩) hsub'
          rw [show reindex (e :: idx') ((k, w) :: Q) =
              (e, colAt ((k, w) :: Q) e) :: reindex idx' ((k, w) :: Q) from rfl,
            hcolAt, List.map_cons, List.reduceOption_cons_of_none]
          exact hrest

end ReindexAsOf

section ColAsOfReindex

theorem colAsOf_reindex (idx : List Int) (P : Col) (d : Int)
    (hidx : idx.Pairwise (· < ·)) (hP : (P.map Prod.fst).Pairwise (· < ·))
    (hsub : ∀ k ∈ P.map Prod.fst, k ∈ idx) :
    colAsOf (reindex idx P) d = colAsOf P d := by
  unfold colAsOf
  refine congrArg List.getLast? ?_
  have hfilter : (reindex idx P).filter (fun p => decide (p.1 ≤ d)) =
      reindex (idx.filter (fun k => decide (k ≤ d))) P := by
    unfold reindex
    rw [List.filter_map]
    rfl
  have hbridge : reindex (idx.filter (fun k => decide (k ≤ d))) P =
      reindex (idx.filter (fun k => decide (k ≤ d)))
        (P.filter (fun p => decide (p.1 ≤ d))) := by
    unfold reindex
    refine List.map_congr_left (fun e he => ?_)
    have hed : e ≤ d := by simpa using (List.mem_filter.mp he).2
    unfold colAt
    rw [lookup_filter_le P e d hed]
  have hkeysP : (P.filter (fun p => decide (p.1 ≤ d))).map Prod.fst =
      (P.map Prod.fst).filter (fun k => decide (k ≤ d)) :=
    (@List.filter_map _ _ (fun k : Int => decide (k ≤ d)) Prod.fst P).symm
  rw [hfilter, hbridge]
  exact reduceOption_reindex_vals (idx.filter (fun k => decide (k ≤ d)))
    (P.filter (fun p => decide (p.1 ≤ d)))
    (List.Pairwise.sublist (List.filter_sublist idx) hidx)
    (by rw [hkeysP]
        exact List.Pairwise.sublist (List.filter_sublist _) hP)
    (by intro k hk
        rw [hkeysP] at hk
        obtain ⟨hkP, hkd⟩ := List.mem_filter.mp hk
        exact List.mem_filter.mpr ⟨hsub k hkP, hkd⟩)

end ColAsOfReindex

section PriceColumn

theorem lookup_nil_reduceOption (idx : List Int) :
    ((idx.map (fun e => List.lookup e ([] : List (Int × ℚ)))).reduceOption) = [] := by
  induction idx with
  | nil => rfl
  | cons e idx' ih =>
    rw [List.map_cons, show List.lookup e ([] : List (Int × ℚ)) = none from rfl,
      List.reduceOption_cons_of_none]
    exact ih

theorem reduceOption_lookup_vals :
    ∀ (idx : List Int) (ps : List (Int × ℚ)), idx.Pairwise (· < ·) →
      (ps.map Prod.fst).Pairwise (· < ·) →
      (∀ k ∈ ps.map Prod.fst, k ∈ idx) →
      ((idx.map (fun e => List.lookup e ps)).reduceOption) = ps.map Prod.snd := by
  intro idx
  induction idx with
  | nil =>
    intro ps _ _ hsub
    cases ps with
    | nil => rfl
    | cons q Q => exact absurd (hsub q.1 (by simp)) (by simp)
  | cons e idx' ih =>
    intro ps hidx hps hsub
    rw [List.pairwise_cons] at hidx
    obtain ⟨helt, hidx'⟩ := hidx
    cases ps with
    | nil => exact lookup_nil_reduceOption (e :: idx')
    | cons q Q =>
      cases q with
      | mk k x =>
        rw [List.map_cons, List.pairwise_cons] at hps
        obtain ⟨hklt, hQ⟩ := hps
        by_cases hek : e = k
        · have hlook : List.lookup e ((k, x) :: Q) = some x := by
            simp [List.lookup, hek]
          have hmap : idx'.map (fun e' => List.lookup e' ((k, x) :: Q)) =
              idx'.map (fun e' => List.lookup e' Q) := by
            refine List.map_congr_left (fun e' he' => ?_)
            have hne : e' ≠ k := ne_of_gt (hek ▸ helt e' he')
            simp only [List.lookup, beq_false_of_ne hne]
          have hsub' : ∀ k' ∈ Q.map Prod.fst, k' ∈ idx' := by
            intro k' hk'
            rcases List.mem_cons.mp (hsub k' (List.mem_cons_of_mem _ hk')) with h1 | h1
            · exfalso
              have hlt2 : k < k' := hklt k' hk'
              rw [h1, hek] at hlt2
              exact lt_irrefl _ hlt2
            · exact h1
          rw [List.map_cons, hlook, List.reduceOption_cons_of_some, hmap,
            ih Q hidx' hQ hsub', List.map_cons]
        · have hkidx' : k ∈ idx' := by
            rcases List.mem_cons.mp (hsub k (by simp)) with h1 | h1
            · exact absurd h1.symm hek
            · exact h1
          have hek2 : e < k := helt k hkidx'
          have hlook : List.lookup e ((k, x) :: Q) = none := by
            simp only [List.lookup, beq_false_of_ne hek]
            refine lookup_none_of_not_mem Q e (fun hmem => ?_)
            exact lt_asymm hek2 (hklt e hmem)
          have hsub' : ∀ k' ∈ ((k, x) :: Q).map Prod.fst, k' ∈ idx' := by
            intro k' hk'
            rcases List.mem_cons.mp (hsub k' hk') with h1 | h1
            · exfalso
              rcases List.mem_cons.mp hk' with h2 | h2
              · exact hek (h1.symm.trans h2)
              · have hlt2 : k < k' := hklt k' h2
                rw [h1] at hlt2
                exact lt_asymm hek2 hlt2
            · exact h1
          rw [List.map_cons, hlook, List.reduceOption_cons_of_none]
          exact ih ((k, x) :: Q) hidx'
            (by rw [List.map_cons, List.pairwise_cons]; exact ⟨hklt, hQ⟩) hsub'

theorem colAsOf_priceColRaw
    (trades : List Trade) (pp : String → List (Int × ℚ)) (s : String) (d : Int)
    (hps : ((pp s).map Prod.fst).Pairwise (· < ·))
    (hsub : ∀ k ∈ (pp s).map Prod.fst, k ∈ priceDates trades pp) :
    colAsOf (priceColRaw trades pp s) d = priceAsOf (pp s) d := by
  unfold colAsOf priceColRaw priceAsOf
  rw [@List.filter_map _ _ (fun q : Int × Option ℚ => decide (q.1 ≤ d))
    (fun e : Int => (e, List.lookup e (pp s))) (priceDates trades pp),
    List.map_map]
  refine congrArg List.getLast? ?_
  show ((((priceDates trades pp).filter (fun e => decide (e ≤ d))).map
      (fun e => List.lookup e (pp s))).reduceOption) = _
  have hbridge : (((priceDates trades pp).filter (fun e => decide (e ≤ d))).map
        (fun e => List.lookup e (pp s))) =
      ((priceDates trades pp).filter (fun e => decide (e ≤ d))).map
        (fun e => List.lookup e ((pp s).filter (fun p => decide (p.1 ≤ d)))) := by
    refine List.map_congr_left (fun e he => ?_)
    have hed : e ≤ d := by simpa using (List.mem_filter.mp he).2
    exact (lookup_filter_le (pp s) e d hed).symm
  rw [hbridge]
  have hkeysP : ((pp s).filter (fun p => decide (p.1 ≤ d))).map Prod.fst =
      ((pp s).map Prod.fst).filter (fun k => decide (k ≤ d)) :=
    (@List.filter_map _ _ (fun k : Int => decide (k ≤ d)) Prod.fst (pp s)).symm
  exact reduceOption_lookup_vals ((priceDates trades pp).filter (fun k => decide (k ≤ d)))
    ((pp s).filter (fun p => decide (p.1 ≤ d)))
    (List.Pairwise.sublist (List.filter_sublist _) (sortedDedup_sorted_lt _))
    (by rw [hkeysP]
        exact List.Pairwise.sublist (List.filter_sublist _) hps)
    (by intro k hk
        rw [hkeysP] at hk
        obtain ⟨hkP, hkd⟩ := List.mem_filter.mp hk
        exact List.mem_filter.mpr ⟨hsub k hkP, hkd⟩)

theorem colAt_priceColFinal
    (trades : List Trade) (pp : String → List (Int × ℚ)) (s : String) (d : Int)
    (hps : ((pp s).map Prod.fst).Pairwise (· < ·))
    (hsub : ∀ k ∈ (pp s).map Prod.fst, k ∈ priceDates trades pp)
    (hd : d ∈ unifiedIndex trades pp) :
    colAt (priceColFinal trades pp (unifiedIndex trades pp) s) d =
      priceAsOf (pp s) d := by
  have hrawkeys : (priceColRaw trades pp s).map Prod.fst = priceDates trades pp :=
    map_fst_tag _ _
  have hidx_sorted : (unifiedIndex trades pp).Pairwise (· < ·) :=
    sortedDedup_sorted_lt _
  have hpd_sub_idx : ∀ k ∈ priceDates trades pp, k ∈ unifiedIndex trades pp :=
    fun k hk => mem_sortedDedup.mpr (List.mem_append_right _ hk)
  have hXkeys : (reindex (unifiedIndex trades pp)
      (ffill (priceColRaw trades pp s))).map Prod.fst = unifiedIndex trades pp :=
    reindex_map_fst _ _
  have h1 : colAt (priceColFinal trades pp (unifiedIndex trades pp) s) d =
      (colAsOf (reindex (unifiedIndex trades pp)
        (ffill (priceColRaw trades pp s))) d).orElse (fun _ => none) := by
    unfold priceColFinal ffill
    exact colAt_ffillFrom d _ none
      (by rw [show (reindex (unifiedIndex trades pp)
          (ffillFrom none (priceColRaw trades pp s))).map Prod.fst =
          unifiedIndex trades pp from reindex_map_fst _ _]
          exact hidx_sorted)
      (by rw [show (reindex (unifiedIndex trades pp)
          (ffillFrom none (priceColRaw trades pp s))).map Prod.fst =
          unifiedIndex trades pp from reindex_map_fst _ _]
          exact hd)
  have h2 : colAsOf (reindex (unifiedIndex trades pp)
      (ffill (priceColRaw trades pp s))) d =
      colAsOf (ffill (priceColRaw trades pp s)) d :=
    colAsOf_reindex _ _ d hidx_sorted
      (by rw [show (ffill (priceColRaw trades pp s)).map Prod.fst =
          priceDates trades pp from (ffillFrom_map_fst _ _).trans hrawkeys]
          exact sortedDedup_sorted_lt _)
      (by intro k hk
          rw [show (ffill (priceColRaw trades pp s)).map Prod.fst =
            priceDates trades pp from (ffillFrom_map_fst _ _).trans hrawkeys] at hk
          exact hpd_sub_idx k hk)
  have h3 : colAsOf (ffill (priceColRaw trades pp s)) d =
      colAsOf (priceColRaw trades pp s) d :=
    colAsOf_ffill _ d (by rw [hrawkeys]; exact sortedDedup_sorted_lt _)
  rw [h1, h2, h3, colAsOf_priceColRaw trades pp s d hps hsub]
  cases priceAsOf (pp s) d <;> simp [Option.orElse]

end PriceColumn

section FillnaColumn

theorem colAt_fillna (c : ℚ) (X : Col) (d : Int) (hd : d ∈ X.map Prod.fst) :
    colAt (fillna c X) d = some ((colAt X d).getD c) := by
  induction X with
  | nil => exact absurd hd (by simp)
  | cons p rest ih =>
    cases p with
    | mk k w =>
      show colAt ((k, some (w.getD c)) :: fillna c rest) d = _
      rw [colAt_cons, colAt_cons]
      by_cases hdk : d = k
      · rw [if_pos hdk, if_pos hdk]
      · rw [if_neg hdk, if_neg hdk]
        refine ih ?_
        rcases List.mem_cons.mp hd with h1 | h1
        · exact absurd h1 hdk
        · exact h1

theorem reduceOption_map_some (L : List ℚ) :
    (L.map (fun x => some x)).reduceOption = L := by
  induction L with
  | nil => rfl
  | cons x L ih => rw [List.map_cons, List.reduceOption_cons_of_some, ih]

theorem colAsOf_fillna (c : ℚ) (Z : Col) (d : Int) :
    colAsOf (fillna c Z) d =
      (((Z.filter (fun p => decide (p.1 ≤ d))).map Prod.snd).map
        (fun w => w.getD c)).getLast? := by
  unfold colAsOf fillna
  rw [@List.filter_map _ _ (fun q : Int × Option ℚ => decide (q.1 ≤ d))
    (fun p : Int × Option ℚ => (p.1, some (p.2.getD c))) Z,
    List.map_map]
  show ((((Z.filter (fun p => decide (p.1 ≤ d))).map
      (fun p => some (p.2.getD c))).reduceOption).getLast?) = _
  rw [show (Z.filter (fun p => decide (p.1 ≤ d))).map
      (fun p => some (p.2.getD c)) =
      (((Z.filter (fun p => decide (p.1 ≤ d))).map Prod.snd).map
        (fun w => w.getD c)).map (fun x => some x) by
    rw [List.map_map, List.map_map]
    rfl]
  rw [reduceOption_map_some]

theorem ffillFrom_cells_some :
    ∀ (col : Col) (c : Option ℚ), c.isSome →
      ∀ w ∈ (ffillFrom c col).map Prod.snd, w.isSome := by
  intro col
  induction col with
  | nil =>
    intro c _ w hw
    rw [show ffillFrom c ([] : Col) = [] from rfl] at hw
    exact absurd hw (by simp)
  | cons p rest ih =>
    intro c hc w hw
    cases p with
    | mk k v =>
      have hsome : (v.orElse (fun _ => c)).isSome = true := by
        cases v with
        | none => simpa [Option.orElse] using hc
        | some y => simp [Option.orElse]
      rcases List.mem_cons.mp hw with h1 | h1
      · exact h1 ▸ hsome
      · exact ih _ hsome w h1

theorem ffillFrom_cells_stepped :
    ∀ (col : Col) (c : Option ℚ),
      ((ffillFrom c col).map Prod.snd).Pairwise (fun a b => a.isSome → b.isSome) := by
  intro col
  induction col with
  | nil => intro c; exact List.Pairwise.nil
  | cons p rest ih =>
    intro c
    cases p with
    | mk k v =>
      rw [show (ffillFrom c ((k, v) :: rest)).map Prod.snd =
          (v.orElse (fun _ => c)) ::
            (ffillFrom (v.orElse (fun _ => c)) rest).map Prod.snd from rfl,
        List.pairwise_cons]
      exact ⟨fun w hw hv => ffillFrom_cells_some rest _ hv w hw, ih _⟩

theorem stepped_getLast (c : ℚ) :
    ∀ L : List (Option ℚ), L.Pairwise (fun a b => a.isSome → b.isSome) →
      ((L.map (fun w => w.getD c)).getLast?).getD c =
        ((L.reduceOption).getLast?).getD c := by
  intro L
  induction L with
  | nil => intro _; rfl
  | cons w L2 ih =>
    intro hstep
    rw [List.pairwise_cons] at hstep
    obtain ⟨hstep1, hL2⟩ := hstep
    cases L2 with
    | nil =>
      cases w with
      | none => rfl
      | some x => rfl
    | cons b L3 =>
      have hmap : (List.map (fun w => w.getD c) (w :: b :: L3)).getLast? =
          (List.map (fun w => w.getD c) (b :: L3)).getLast? := by
        simp only [List.map_cons]
        exact List.getLast?_cons_cons
      rw [hmap, ih hL2,
        show ((w :: b :: L3).reduceOption).getLast? =
          (((b :: L3).reduceOption).getLast?).orElse (fun _ => w) from
          lastSome_cons w (b :: L3)]
      cases hx : ((b :: L3).reduceOption).getLast? with
      | some y => simp [Option.orElse]
      | none =>
        have hnil : (b :: L3).reduceOption = [] := List.getLast?_eq_none_iff.mp hx
        have hwnone : w = none := by
          cases w with
          | none => rfl
          | some x =>
            exfalso
            have hb : b.isSome := hstep1 b (by simp) (by simp)
            cases b with
            | none => exact absurd hb (by simp)
            | some z =>
              rw [List.reduceOption_cons_of_some] at hnil
              exact absurd hnil (by simp)
        rw [hwnone]
        simp [Option.orElse]

end FillnaColumn

section PosCell

theorem Trade.tsLe_day {u v : Trade} (h : u.tsLe v) : u.day ≤ v.day := by
  rcases h with h | h
  · exact le_of_lt h
  · exact le_of_eq h.1

theorem getLast?_cons_of_ne (x : ℚ) (l : List ℚ) (h : l ≠ []) :
    (x :: l).getLast? = l.getLast? := by
  cases l with
  | nil => exact absurd rfl h
  | cons y ys => exact List.getLast?_cons_cons

theorem cumsum_lastCell (s : String) (e : Int) :
    ∀ (trades : List Trade) (totals : String → ℚ), trades.Pairwise Trade.tsLe →
      (((PortfolioBuilder.cumsum_by_symbol totals trades).filter
          (fun p => decide (p.1.day = e) && decide (p.1.symbol = s))).map
        Prod.snd).getLast? =
        (if (trades.filter
            (fun t => decide (t.day = e) && decide (t.symbol = s))).isEmpty
         then none
         else some (totals s +
          ((trades.filter
            (fun t => decide (t.symbol = s) && decide (t.day ≤ e))).map
            Trade.qty).sum)) := by
  intro trades
  induction trades with
  | nil => intro totals _; rfl
  | cons t ts ih =>
    intro totals hsorted
    rw [List.pairwise_cons] at hsorted
    obtain ⟨hle, hts⟩ := hsorted
    rw [show PortfolioBuilder.cumsum_by_symbol totals (t :: ts) =
      (t, totals t.symbol + t.qty) ::
        PortfolioBuilder.cumsum_by_symbol
          (fun s2 => if s2 = t.symbol
            then totals t.symbol + t.qty else totals s2) ts from rfl]
    by_cases hmatch : t.day = e ∧ t.symbol = s
    · rw [List.filter_cons_of_pos (by simp [hmatch.1, hmatch.2]),
        List.filter_cons_of_pos (by simp [hmatch.1, hmatch.2]),
        List.filter_cons_of_pos (by simp [hmatch.2, le_of_eq hmatch.1]),
        List.map_cons, List.map_cons, List.sum_cons]
      have htpos : (if s = t.symbol then totals t.symbol + t.qty else totals s) =
          totals s + t.qty := by
        rw [if_pos hmatch.2.symm, hmatch.2]
      rw [if_neg (by simp)]
      have hrec := ih (fun s2 => if s2 = t.symbol
        then totals t.symbol + t.qty else totals s2) hts
      by_cases hempty : (ts.filter
          (fun u => decide (u.day = e) && decide (u.symbol = s))).isEmpty = true
      · rw [if_pos hempty] at hrec
        have hnil : ((PortfolioBuilder.cumsum_by_symbol
            (fun s2 => if s2 = t.symbol
              then totals t.symbol + t.qty else totals s2) ts).filter
            (fun p => decide (p.1.day = e) && decide (p.1.symbol = s))).map
            Prod.snd = [] := List.getLast?_eq_none_iff.mp hrec
        rw [hnil, show ((totals t.symbol + t.qty) ::
            ([] : List ℚ)).getLast? = some (totals t.symbol + t.qty) from rfl]
        have htsnil : ts.filter
            (fun u => decide (u.symbol = s) && decide (u.day ≤ e)) = [] := by
          rw [List.filter_eq_nil_iff]
          intro u hu hbool
          simp only [Bool.and_eq_true, decide_eq_true_eq] at hbool
          have hud : u.day = e :=
            le_antisymm hbool.2 (hmatch.1 ▸ Trade.tsLe_day (hle u hu))
          have : u ∈ ts.filter
              (fun u => decide (u.day = e) && decide (u.symbol = s)) :=
            List.mem_filter.mpr ⟨hu, by simp [hud, hbool.1]⟩
          rw [List.isEmpty_iff.mp hempty] at this
          exact absurd this (by simp)
        rw [htsnil, hmatch.2]
        norm_num
      · rw [if_neg hempty] at hrec
        have hlast : (((PortfolioBuilder.cumsum_by_symbol
            (fun s2 => if s2 = t.symbol
              then totals t.symbol + t.qty else totals s2) ts).filter
            (fun p => decide (p.1.day = e) && decide (p.1.symbol = s))).map
            Prod.snd) ≠ [] := by
          intro hcontra
          rw [hcontra] at hrec
          exact absurd hrec.symm (by simp)
        rw [getLast?_cons_of_ne _ _ hlast, hrec]
        simp only [htpos]
        refine congrArg some ?_
        ring
    · have hbool : ¬((decide (t.day = e) && decide (t.symbol = s)) = true) := by
        simp only [Bool.and_eq_true, decide_eq_true_eq]
        exact fun h => hmatch h
      rw [List.filter_cons_of_neg (by simpa using hbool)]
      have hfR : List.filter
          (fun u => decide (u.day = e) && decide (u.symbol = s)) (t :: ts) =
          List.filter (fun u => decide (u.day = e) && decide (u.symbol = s)) ts :=
        List.filter_cons_of_neg hbool
      rw [hfR]
      have hrec := ih (fun s2 => if s2 = t.symbol
        then totals t.symbol + t.qty else totals s2) hts
      rw [hrec]
      by_cases hempty : (ts.filter
          (fun u => decide (u.day = e) && decide (u.symbol = s))).isEmpty = true
      · rw [if_pos hempty, if_pos hempty]
      · rw [if_neg hempty, if_neg hempty]
        refine congrArg some ?_
        obtain ⟨u, hu⟩ := List.exists_mem_of_ne_nil
          (ts.filter (fun u => decide (u.day = e) && decide (u.symbol = s)))
          (fun hcontra => hempty (by rw [hcontra]; rfl))
        obtain ⟨humem, hubool⟩ := List.mem_filter.mp hu
        simp only [Bool.and_eq_true, decide_eq_true_eq] at hubool
        have htday : t.day ≤ e := hubool.1 ▸ Trade.tsLe_day (hle u humem)
        by_cases hsym2 : t.symbol = s
        · rw [List.filter_cons_of_pos (by simp [hsym2, htday]),
            List.map_cons, List.sum_cons]
          simp only [if_pos hsym2.symm, hsym2, if_true]
          ring
        · rw [List.filter_cons_of_neg
            (by simp only [Bool.and_eq_true, decide_eq_true_eq]
                exact fun h => hsym2 h.1)]
          simp only [if_neg (fun h : s = t.symbol => hsym2 h.symm)]

end PosCell

section PosWalk

theorem posCell_eq (trades : List Trade) (hsorted : trades.Pairwise Trade.tsLe)
    (e : Int) (s : String) :
    posCell trades e s =
      (if (trades.filter
          (fun t => decide (t.day = e) && decide (t.symbol = s))).isEmpty
       then none
       else some (((trades.filter
          (fun t => decide (t.symbol = s) && decide (t.day ≤ e))).map
          Trade.qty).sum)) := by
  have h := cumsum_lastCell s e trades (fun _ => 0) hsorted
  unfold posCell PortfolioBuilder.build_positions
  simpa using h

theorem lastSome_posCells (trades : List Trade) (s : String) (d : Int)
    (hsorted : trades.Pairwise Trade.tsLe) :
    ∀ ds : List Int, ds.Pairwise (· < ·) → (∀ e ∈ ds, e ≤ d) →
      (∀ t ∈ trades, t.symbol = s → t.day ≤ d → t.day ∈ ds) →
      ((ds.map (fun e => posCell trades e s)).reduceOption).getLast? =
        (if (trades.filter
            (fun t => decide (t.symbol = s) && decide (t.day ≤ d))).isEmpty
         then none else some (posAsOf trades s d)) := by
  intro ds
  induction ds using List.reverseRecOn with
  | nil =>
    intro _ _ hin
    have hcond : (trades.filter
        (fun t => decide (t.symbol = s) && decide (t.day ≤ d))).isEmpty = true := by
      rw [List.isEmpty_iff, List.filter_eq_nil_iff]
      intro t ht hbool
      simp only [Bool.and_eq_true, decide_eq_true_eq] at hbool
      exact absurd (hin t ht hbool.1 hbool.2) (by simp)
    rw [if_pos hcond]
    rfl
  | append_singleton ds' e0 ih =>
    intro hdsorted hdle hin
    have hds'sorted : ds'.Pairwise (· < ·) :=
      (List.pairwise_append.mp hdsorted).1
    have hds'lt : ∀ e ∈ ds', e < e0 :=
      fun e he => (List.pairwise_append.mp hdsorted).2.2 e he e0 (by simp)
    have he0d : e0 ≤ d := hdle e0 (by simp)
    rw [List.map_append, List.reduceOption_append, List.getLast?_append]
    simp only [List.map_cons, List.map_nil]
    rw [posCell_eq trades hsorted e0 s]
    by_cases hcell : (trades.filter
        (fun t => decide (t.day = e0) && decide (t.symbol = s))).isEmpty = true
    · rw [if_pos hcell]
      rw [show (([none] : List (Option ℚ)).reduceOption).getLast? = none from rfl]
      rw [Option.none_or]
      refine ih hds'sorted (fun e he => hdle e (by simp [he])) ?_
      intro t ht hts htd
      have hmem := hin t ht hts htd
      rcases List.mem_append.mp hmem with h1 | h1
      · exact h1
      · exfalso
        have hd0 : t.day = e0 := by simpa using h1
        have : t ∈ trades.filter
            (fun t => decide (t.day = e0) && decide (t.symbol = s)) :=
          List.mem_filter.mpr ⟨ht, by simp [hd0, hts]⟩
        rw [List.isEmpty_iff.mp hcell] at this
        exact absurd this (by simp)
    · rw [if_neg hcell]
      rw [show (([some (((trades.filter
          (fun t => decide (t.symbol = s) && decide (t.day ≤ e0))).map
          Trade.qty).sum)] : List (Option ℚ)).reduceOption).getLast? =
          some (((trades.filter
          (fun t => decide (t.symbol = s) && decide (t.day ≤ e0))).map
          Trade.qty).sum) from rfl]
      rw [show ∀ (v : ℚ) (x : Option ℚ), (some v).or x = some v from
        fun v x => rfl]
      obtain ⟨u, hu⟩ := List.exists_mem_of_ne_nil
        (trades.filter (fun t => decide (t.day = e0) && decide (t.symbol = s)))
        (fun hcontra => hcell (by rw [hcontra]; rfl))
      obtain ⟨humem, hubool⟩ := List.mem_filter.mp hu
      simp only [Bool.and_eq_true, decide_eq_true_eq] at hubool
      have hnotempty : ¬(trades.filter
          (fun t => decide (t.symbol = s) && decide (t.day ≤ d))).isEmpty = true := by
        intro hc
        have : u ∈ trades.filter
            (fun t => decide (t.symbol = s) && decide (t.day ≤ d)) :=
          List.mem_filter.mpr ⟨humem, by
            simp [hubool.2, hubool.1 ▸ he0d]⟩
        rw [List.isEmpty_iff.mp hc] at this
        exact absurd this (by simp)
      rw [if_neg hnotempty]
      refine congrArg some ?_
      unfold posAsOf
      refine congrArg (fun l => (List.map Trade.qty l).sum) ?_
      refine List.filter_congr (fun t ht => ?_)
      by_cases hts : t.symbol = s
      · simp only [hts, decide_True, Bool.true_and]
        by_cases htd : t.day ≤ d
        · have hmem := hin t ht hts htd
          have hle0 : t.day ≤ e0 := by
            rcases List.mem_append.mp hmem with h1 | h1
            · exact le_of_lt (hds'lt t.day h1)
            · exact le_of_eq (by simpa using h1)
          simp [hle0, htd]
        · have hne0 : ¬t.day ≤ e0 := fun hle0 => htd (le_trans hle0 he0d)
          simp [hne0, htd]
      · simp [hts]

end PosWalk

section PosColumnFinal

theorem colAsOf_posColRaw (trades : List Trade) (s : String) (d : Int)
    (hsorted : trades.Pairwise Trade.tsLe) :
    colAsOf (posColRaw trades s) d =
      (if (trades.filter
          (fun t => decide (t.symbol = s) && decide (t.day ≤ d))).isEmpty
       then none else some (posAsOf trades s d)) := by
  unfold colAsOf posColRaw
  rw [@List.filter_map _ _ (fun q : Int × Option ℚ => decide (q.1 ≤ d))
    (fun e : Int => (e, posCell trades e s)) (posDates trades), List.map_map]
  show (((((posDates trades).filter (fun e => decide (e ≤ d))).map
      (fun e => posCell trades e s)).reduceOption).getLast?) = _
  exact lastSome_posCells trades s d hsorted
    ((posDates trades).filter (fun e => decide (e ≤ d)))
    (List.Pairwise.sublist (List.filter_sublist _) (sortedDedup_sorted_lt _))
    (fun e he => by simpa using (List.mem_filter.mp he).2)
    (fun t ht hts htd => List.mem_filter.mpr
      ⟨mem_sortedDedup.mpr (List.mem_map_of_mem Trade.day ht), by simpa using htd⟩)

theorem posAsOf_eq_zero_of_empty (trades : List Trade) (s : String) (d : Int)
    (h : (trades.filter
      (fun t => decide (t.symbol = s) && decide (t.day ≤ d))).isEmpty = true) :
    posAsOf trades s d = 0 := by
  unfold posAsOf
  rw [List.isEmpty_iff.mp h]
  rfl

theorem colAt_posColFinal (trades : List Trade)
    (pp : String → List (Int × ℚ)) (s : String) (d : Int)
    (hsorted : trades.Pairwise Trade.tsLe)
    (hd : d ∈ unifiedIndex trades pp) :
    colAt (posColFinal trades (unifiedIndex trades pp) s) d =
      some (posAsOf trades s d) := by
  have hidx_sorted : (unifiedIndex trades pp).Pairwise (· < ·) :=
    sortedDedup_sorted_lt _
  have hrawkeys : (posColRaw trades s).map Prod.fst = posDates trades :=
    map_fst_tag _ _
  have hYkeys : (fillna 0 (ffill (posColRaw trades s))).map Prod.fst =
      posDates trades := by
    rw [fillna_map_fst]
    unfold ffill
    rw [ffillFrom_map_fst, hrawkeys]
  have hpd_sub_idx : ∀ k ∈ posDates trades, k ∈ unifiedIndex trades pp :=
    fun k hk => mem_sortedDedup.mpr (List.mem_append_left _ hk)
  have hXkeys : (ffill (reindex (unifiedIndex trades pp)
      (fillna 0 (ffill (posColRaw trades s))))).map Prod.fst =
      unifiedIndex trades pp := by
    unfold ffill
    rw [ffillFrom_map_fst, reindex_map_fst]
  have h0 : colAt (posColFinal trades (unifiedIndex trades pp) s) d =
      some ((colAt (ffill (reindex (unifiedIndex trades pp)
        (fillna 0 (ffill (posColRaw trades s))))) d).getD 0) := by
    unfold posColFinal
    exact colAt_fillna 0 _ d (by rw [hXkeys]; exact hd)
  have h1 : colAt (ffill (reindex (unifiedIndex trades pp)
      (fillna 0 (ffill (posColRaw trades s))))) d =
      (colAsOf (reindex (unifiedIndex trades pp)
        (fillna 0 (ffill (posColRaw trades s)))) d).orElse (fun _ => none) := by
    unfold ffill
    exact colAt_ffillFrom d _ none
      (by rw [reindex_map_fst]; exact hidx_sorted)
      (by rw [reindex_map_fst]; exact hd)
  have h2 : colAsOf (reindex (unifiedIndex trades pp)
      (fillna 0 (ffill (posColRaw trades s)))) d =
      colAsOf (fillna 0 (ffill (posColRaw trades s))) d :=
    colAsOf_reindex _ _ d hidx_sorted
      (by rw [hYkeys]; exact sortedDedup_sorted_lt _)
      (by intro k hk; rw [hYkeys] at hk; exact hpd_sub_idx k hk)
  have hstepped : (((ffill (posColRaw trades s)).filter
      (fun p => decide (p.1 ≤ d))).map Prod.snd).Pairwise
        (fun a b => a.isSome → b.isSome) :=
    List.Pairwise.sublist
      (List.Sublist.map Prod.snd (List.filter_sublist _))
      (ffillFrom_cells_stepped (posColRaw trades s) none)
  have h3 : (colAsOf (fillna 0 (ffill (posColRaw trades s))) d).getD 0 =
      (colAsOf (ffill (posColRaw trades s)) d).getD 0 := by
    rw [colAsOf_fillna]
    exact stepped_getLast 0 _ hstepped
  have h4 : colAsOf (ffill (posColRaw trades s)) d =
      colAsOf (posColRaw trades s) d :=
    colAsOf_ffill _ d (by rw [hrawkeys]; exact sortedDedup_sorted_lt _)
  rw [h0, h1, h2]
  have horelse : ∀ x : Option ℚ, (x.orElse (fun _ => none)) = x := by
    intro x; cases x <;> simp [Option.orElse]
  rw [horelse, h3, h4, colAsOf_posColRaw trades s d hsorted]
  by_cases hcase : (trades.filter
      (fun t => decide (t.symbol = s) && decide (t.day ≤ d))).isEmpty = true
  · rw [if_pos hcase, posAsOf_eq_zero_of_empty trades s d hcase]
    rfl
  · rw [if_neg hcase]
    rfl

end PosColumnFinal

section EquityMarkToMarket

/-- C5: in the priced path of `build_equity_curve`, for every date of the
unified index (union of position dates and price dates), the equity value
equals the sum over symbols of position × price, where the position is the
forward-filled, zero-filled running sum of the symbol's signed quantities up to
that date, the price is the forward-filled last quote at or before that date,
and a symbol with no price at or before that date contributes zero. -/
theorem build_equity_curve_marks_to_market (trades : List Trade)
    (pp : String → List (Int × ℚ))
    (hsorted : trades.Pairwise Trade.tsLe)
    (hpp : ∀ s, ((pp s).map Prod.fst).Pairwise (· < ·))
    (hpriced : ¬(pricedSymbols trades pp).isEmpty = true) :
    build_equity_curve trades pp =
      (unifiedIndex trades pp).map (fun d =>
        (d, ((symbolsOf trades).map (fun s =>
          posAsOf trades s d * (priceAsOf (pp s) d).getD 0)).sum)) := by
  unfold build_equity_curve
  rw [if_neg hpriced]
  refine List.map_congr_left (fun d hd => ?_)
  refine congrArg (Prod.mk d) ?_
  refine congrArg List.sum ?_
  refine List.map_congr_left (fun s hs => ?_)
  rw [colAt_posColFinal trades pp s d hsorted hd]
  by_cases hsp : (pricedSymbols trades pp).contains s = true
  · rw [if_pos hsp]
    have hsubpd : ∀ k ∈ (pp s).map Prod.fst, k ∈ priceDates trades pp := by
      intro k hk
      refine mem_sortedDedup.mpr ?_
      exact List.mem_flatMap.mpr ⟨s, List.mem_of_elem_eq_true hsp, hk⟩
    rw [colAt_priceColFinal trades pp s d (hpp s) hsubpd hd]
    cases hpr : priceAsOf (pp s) d with
    | some x => rfl
    | none => simp [nanMul]
  · rw [if_neg hsp]
    have hempty : pp s = [] := by
      by_contra hne
      refine hsp (List.elem_eq_true_of_mem ?_)
      unfold pricedSymbols
      exact List.mem_filter.mpr ⟨hs, by simp [hne]⟩
    rw [hempty]
    show (nanMul (some (posAsOf trades s d)) none).getD 0 =
      posAsOf trades s d * ((priceAsOf [] d).getD 0)
    simp [nanMul, priceAsOf]

theorem build_equity_curve_marks_to_market_witness :
    build_equity_curve [⟨0, 0, "A", 3, -30⟩, ⟨2, 0, "A", 1, -11⟩]
        (fun _ => [((1 : Int), (10 : ℚ)), (3, 12)]) =
      (unifiedIndex [⟨0, 0, "A", 3, -30⟩, ⟨2, 0, "A", 1, -11⟩]
          (fun _ => [((1 : Int), (10 : ℚ)), (3, 12)])).map (fun d =>
        (d, ((symbolsOf [⟨0, 0, "A", 3, -30⟩, ⟨2, 0, "A", 1, -11⟩]).map (fun s =>
          posAsOf [⟨0, 0, "A", 3, -30⟩, ⟨2, 0, "A", 1, -11⟩] s d *
            (priceAsOf ((fun _ => [((1 : Int), (10 : ℚ)), (3, 12)]) s) d).getD 0)).sum)) :=
  build_equity_curve_marks_to_market
    [⟨0, 0, "A", 3, -30⟩, ⟨2, 0, "A", 1, -11⟩]
    (fun _ => [((1 : Int), (10 : ℚ)), (3, 12)])
    (by
      refine List.Pairwise.cons ?_ ?_
      · intro u hu
        rw [List.mem_singleton] at hu
        subst hu
        left
        norm_num
      · simp [Trade.tsLe])
    (fun s => by simp)
    (by simp [pricedSymbols, symbolsOf, List.dedup, List.insertionSort,
      List.orderedInsert])

end EquityMarkToMarket

theorem cash_flows_groups_by_date_witness :
    (((5 : Int), (-380 : ℚ))).2 =
      ((([⟨5, 1, "X", 0, -500⟩, ⟨5, 2, "X", 0, 120⟩] : List Trade).filter
          (fun t => decide (t.day = (((5 : Int), (-380 : ℚ))).1))).map
        Trade.cash_flow).sum :=
  (cash_flows_groups_by_date.1 _).2.2 (5, -380)
    (by rw [cash_flows_groups_by_date.2]
        exact List.mem_singleton.mpr rfl)
